import Mathlib

/-!
Verification of the oid-registry definition-file loader, code generator and
runtime registry.

Strings from the Rust source are modelled as lists of characters (`RStr`),
so that splitting and joining can be reasoned about by structural induction.
The loader (`load.rs`) is embedded by `parse_line` / `load_lines` /
`load_file`; the code generator (`generate_file` in `load.rs`) by
`generate_file`; the runtime registry (`lib.rs`) by `OidRegistry` with
`insert`, `get` and `format_oid`.

The Rust `LoadedMap` is a `HashMap<String, Vec<Entry>>`.  A hash map is
modelled here as an association list without duplicate keys; the list order
stands for the (unspecified) iteration order of the hash map.  The loader
builds the list in first-insertion order; the generator consumes whatever
enumeration it is given, which is how the unspecified iteration order of the
Rust `HashMap` is made explicit.
-/

set_option maxRecDepth 4096

/-- Strings of the modelled program, as lists of characters. -/
abbrev RStr : Type := List Char

/-- Injection of Lean string literals into the strings of the model. -/
def str (s : String) : RStr := s.toList

/-- Rust `str::splitn` helper: split off everything before the first
occurrence of the separator, returning the piece and the remainder. -/
def splitFirst (sep : Char) : RStr → Option (RStr × RStr)
  | [] => none
  | c :: cs =>
    if c = sep then some ([], cs)
    else
      match splitFirst sep cs with
      | none => none
      | some (f, r) => some (c :: f, r)

/-- Rust `str::splitn (n, sep)`: at most `n` pieces, the last piece holding
the unsplit remainder of the string. -/
def splitn (sep : Char) : Nat → RStr → List RStr
  | 0, _ => []
  | 1, s => [s]
  | Nat.succ (Nat.succ k), s =>
    match splitFirst sep s with
    | none => [s]
    | some (f, r) => f :: splitn sep (Nat.succ k) r

/-- Join pieces with a single separator character between them. -/
def joinSep (sep : Char) : List RStr → RStr
  | [] => []
  | [f] => f
  | f :: g :: t => f ++ sep :: joinSep sep (g :: t)

/-- Rust `str::replace ("-", "_")` on the feature field: the pattern is a
single character, so it is a character map. -/
def replaceDash (s : RStr) : RStr := s.map (fun c => if c = '-' then '_' else c)

/-- The `Entry` record of `load.rs`: canonical name, OID text, short name
and description of one definition line (the feature is the map key). -/
structure Entry where
  name : RStr
  oid : RStr
  sn : RStr
  description : RStr
deriving DecidableEq, Repr

/-- The `LoadedMap` of `load.rs` (`HashMap<String, Vec<Entry>>`), modelled
as an association list from feature key to the entries of that feature. -/
abbrev LoadedMap : Type := List (RStr × List Entry)

/-- Error message of the `expect` call for field `i` of a definition line
(0 = feature, 1 = name, 2 = OID, 3 = short name, 4 = description). -/
def fieldErrorMsg : Nat → RStr
  | 0 => str "invalid oid_db format: missing feature"
  | 1 => str "invalid oid_db format: missing name"
  | 2 => str "invalid oid_db format: missing OID"
  | 3 => str "invalid oid_db format: missing short name"
  | _ => str "invalid oid_db format: missing description"

/-- One data line of `load_file` in `load.rs`: split into at most five
tab-separated fields, take the five fields in order (failing with the
matching `expect` message when one is missing), and replace hyphens with
underscores in the feature field. -/
def parse_line (line : RStr) : Except RStr (RStr × Entry) :=
  let fields := splitn '\t' 5 line
  match fields.get? 0 with
  | none => .error (fieldErrorMsg 0)
  | some f0 =>
    match fields.get? 1 with
    | none => .error (fieldErrorMsg 1)
    | some f1 =>
      match fields.get? 2 with
      | none => .error (fieldErrorMsg 2)
      | some f2 =>
        match fields.get? 3 with
        | none => .error (fieldErrorMsg 3)
        | some f3 =>
          match fields.get? 4 with
          | none => .error (fieldErrorMsg 4)
          | some f4 => .ok (replaceDash f0, ⟨f1, f2, f3, f4⟩)

/-- The skip test of `load_file`: `line.is_empty() || line.starts_with ('#')`. -/
def skipLine : RStr → Bool
  | [] => true
  | c :: _ => c == '#'

/-- `map.entry (feature).or_insert_with (Vec::new); v.push (entry)`:
append the entry to the vector of the feature, creating the vector when
the feature key is new. -/
def mapAppend (m : LoadedMap) (k : RStr) (e : Entry) : LoadedMap :=
  match m with
  | [] => [(k, [e])]
  | (k', v) :: rest => if k' = k then (k', v ++ [e]) :: rest else (k', v) :: mapAppend rest k e

/-- The line loop of `load_file`, over the remaining lines and the map
built so far. -/
def load_lines : List RStr → LoadedMap → Except RStr LoadedMap
  | [], m => .ok m
  | line :: rest, m =>
    if skipLine line then load_lines rest m
    else
      match parse_line line with
      | .error e => .error e
      | .ok (f, entry) => load_lines rest (mapAppend m f entry)

/-- `load_file` of `load.rs`, on the list of lines of the input file. -/
def load_file (lines : List RStr) : Except RStr LoadedMap := load_lines lines []

/-- The canonical-name sentinel of `generate_file`: the two-character
string consisting of two double-quote characters. -/
def sentinel : RStr := str "\"\""

/-- The constant line `pub const NAME: Oid<..> = oid!(OID);` emitted for one
entry by `generate_file`. -/
def constDecl (e : Entry) : RStr :=
  str "pub const " ++ e.name ++ str ": Oid<\x27static> = oid!(" ++ e.oid ++ str ");\n"

/-- The constant lines emitted for the entries of one feature: entries whose name
equals the sentinel emit nothing. -/
def genConstsEntries (es : List Entry) : RStr :=
  (es.map (fun e => if e.name = sentinel then [] else constDecl e)).flatten

/-- The `self.insert (oid!(..), OidEntry::new (.., ..));` line emitted for
one entry inside a population method. -/
def insertLine (e : Entry) : RStr :=
  str "        self.insert(oid!(" ++ e.oid ++ str "), OidEntry::new(\"" ++ e.sn
    ++ str "\", \"" ++ e.description ++ str "\"));\n"

/-- The feature-gated `with_<feature>` population method emitted for one
feature and its entries. -/
def methodBlock (k : RStr) (es : List Entry) : RStr :=
  str "    #[cfg(feature = \"" ++ k ++ str "\")]\n"
    ++ str "    pub fn with_" ++ k ++ str "(mut self) -> Self \x7b\n"
    ++ (es.map insertLine).flatten
    ++ str "        self\n"
    ++ str "    \x7d\n"
    ++ str "\n"

/-- `generate_file` of `load.rs`: the constant lines of every feature in
iteration order, a blank line, and an `impl OidRegistry` block holding one
population method per feature in iteration order.  The argument list is the
enumeration of the `HashMap` in its iteration order. -/
def generate_file (m : LoadedMap) : RStr :=
  (m.map (fun kv => genConstsEntries kv.2)).flatten
    ++ str "\n"
    ++ str "impl OidRegistry \x7b\n"
    ++ (m.map (fun kv => methodBlock kv.1 kv.2)).flatten
    ++ str "\x7d\n"

/-- Lookup of a feature key in a `LoadedMap`. -/
def lookupMap : LoadedMap → RStr → Option (List Entry)
  | [], _ => none
  | (k, v) :: rest, f => if k = f then some v else lookupMap rest f

/-- The entries stored under a feature key (empty when the key is absent). -/
def findEntries : LoadedMap → RStr → List Entry
  | [], _ => []
  | (k, v) :: rest, f => if k = f then v else findEntries rest f

/-- A `LoadedMap` enumeration is a valid hash-map representation when its
keys are pairwise distinct. -/
def keysNodup (m : LoadedMap) : Prop := (m.map Prod.fst).Nodup

/-- Two enumerations represent the same hash map (the same table): both are
duplicate-free and they associate every key to the same value. -/
def sameTable (m1 m2 : LoadedMap) : Prop :=
  keysNodup m1 ∧ keysNodup m2 ∧ ∀ k : RStr, lookupMap m1 k = lookupMap m2 k

/-- The entries produced for feature `f`, read directly off the input lines
in file order: skipped lines contribute nothing and every other line whose
parsed (post-substitution) feature is `f` contributes its entry. -/
def dataEntriesFor (lines : List RStr) (f : RStr) : List Entry :=
  lines.foldr
    (fun line acc =>
      if skipLine line then acc
      else
        match parse_line line with
        | .error _ => acc
        | .ok (f', e) => if f' = f then e :: acc else acc)
    []

/-- Test whether a load result is the missing-feature error. -/
def isErrMissingFeature {α : Type} : Except RStr α → Bool
  | .error e => decide (e = fieldErrorMsg 0)
  | .ok _ => false

/-- The external OID value type, modelled by its arc numbers. -/
abbrev Oid : Type := List Nat

/-- Decimal rendering of one arc. -/
def natChars (n : Nat) : RStr := (Nat.repr n).toList

/-- The canonical dotted-text rendering of an OID (the `Display` of the
external OID type). -/
def oidShow (o : Oid) : RStr := joinSep '.' (o.map natChars)

/-- The `OidEntry` record of `lib.rs`: short name and description. -/
structure OidEntry where
  sn : RStr
  description : RStr
deriving DecidableEq, Repr

/-- First-match lookup in the underlying association list of the registry. -/
def lookupOid : List (Oid × OidEntry) → Oid → Option OidEntry
  | [], _ => none
  | (k, v) :: rest, o => if k = o then some v else lookupOid rest o

/-- Replace the value stored under a key, appending when the key is new
(the update of a hash-map insert). -/
def insertAssoc : List (Oid × OidEntry) → Oid → OidEntry → List (Oid × OidEntry)
  | [], o, e => [(o, e)]
  | (k, v) :: rest, o, e =>
    if k = o then (k, e) :: rest else (k, v) :: insertAssoc rest o e

/-- The `OidRegistry` of `lib.rs`: a hash map from OID to entry, modelled
as an association list. -/
structure OidRegistry where
  map : List (Oid × OidEntry)
deriving DecidableEq, Repr

/-- `OidRegistry::get`: a pure lookup. -/
def OidRegistry.get (r : OidRegistry) (o : Oid) : Option OidEntry :=
  lookupOid r.map o

/-- `OidRegistry::insert`: unconditional upsert returning the previously
stored entry, paired with the updated registry. -/
def OidRegistry.insert (r : OidRegistry) (o : Oid) (e : OidEntry) :
    Option OidEntry × OidRegistry :=
  (lookupOid r.map o, ⟨insertAssoc r.map o e⟩)

/-- `format_oid` of `lib.rs`: `"<short name> (<dotted text>)"` when the OID
is registered, the dotted text alone otherwise. -/
def format_oid (o : Oid) (registry : OidRegistry) : RStr :=
  match lookupOid registry.map o with
  | some entry => entry.sn ++ str " (" ++ oidShow o ++ str ")"
  | none => oidShow o

/-- Sample entry whose canonical name is the sentinel. -/
def eSent : Entry := ⟨str "\"\"", str "2.1", str "s1", str "d1"⟩

/-- Sample entry with an ordinary canonical name. -/
def eNorm : Entry := ⟨str "OID_K", str "2.2", str "s2", str "d2"⟩

/-- Sample one-feature table holding both sample entries. -/
def mSample : LoadedMap := [(str "kdf", [eSent, eNorm])]

/-- Sample entry of feature a. -/
def entA : Entry := ⟨str "OID_A", str "1.1", str "sa", str "da"⟩

/-- Sample entry of feature b. -/
def entB : Entry := ⟨str "OID_B", str "1.2", str "sb", str "db"⟩

/-- A two-feature table enumerated with feature a first. -/
def mAB : LoadedMap := [(str "a", [entA]), (str "b", [entB])]

/-- The same two-feature table enumerated with feature b first. -/
def mBA : LoadedMap := [(str "b", [entB]), (str "a", [entA])]

theorem splitFirst_eq_some {sep : Char} :
    ∀ {s f r : RStr}, splitFirst sep s = some (f, r) → s = f ++ sep :: r := by
  intro s
  induction s with
  | nil => intro f r h; simp [splitFirst] at h
  | cons c cs ih =>
    intro f r h
    by_cases hc : c = sep
    · simp [splitFirst, hc] at h
      simp [hc, h.1.symm, h.2.symm]
    · simp [splitFirst, hc] at h
      cases hs : splitFirst sep cs with
      | none => rw [hs] at h; simp at h
      | some p =>
        rw [hs] at h
        simp at h
        have := ih (f := p.1) (r := p.2) (by rw [hs])
        rw [← h.1, this, h.2]
        simp

theorem splitFirst_append {sep : Char} {f : RStr} (rest : RStr) (h : sep ∉ f) :
    splitFirst sep (f ++ sep :: rest) = some (f, rest) := by
  induction f with
  | nil => simp [splitFirst]
  | cons c cs ih =>
    have hc : ¬ c = sep := by
      intro he; exact h (by simp [he])
    have ih' := ih (by intro hm; exact h (by simp [hm]))
    simp [splitFirst, hc, ih']

theorem splitn_ne_nil (sep : Char) :
    ∀ (n : Nat) (s : RStr), 1 ≤ n → ∃ g t, splitn sep n s = g :: t := by
  intro n
  match n with
  | 0 => intro s h; omega
  | 1 => intro s _; exact ⟨s, [], rfl⟩
  | Nat.succ (Nat.succ k) =>
    intro s _
    cases hs : splitFirst sep s with
    | none => exact ⟨s, [], by simp [splitn, hs]⟩
    | some p => exact ⟨p.1, splitn sep (Nat.succ k) p.2, by simp [splitn, hs]⟩

theorem joinSep_splitn (sep : Char) :
    ∀ (n : Nat) (s : RStr), 1 ≤ n → joinSep sep (splitn sep n s) = s := by
  intro n
  induction n with
  | zero => intro s h; omega
  | succ m ih =>
    intro s _
    match m with
    | 0 => simp [splitn, joinSep]
    | Nat.succ k =>
      cases hs : splitFirst sep s with
      | none => simp [splitn, hs, joinSep]
      | some p =>
        obtain ⟨g, t, hgt⟩ := splitn_ne_nil sep (Nat.succ k) p.2 (by omega)
        have hrec : joinSep sep (splitn sep (Nat.succ k) p.2) = p.2 := ih p.2 (by omega)
        have hsplit := splitFirst_eq_some (s := s) (f := p.1) (r := p.2) (by rw [hs])
        have h1 : splitn sep (Nat.succ (Nat.succ k)) s = p.1 :: splitn sep (Nat.succ k) p.2 := by
          simp [splitn, hs]
        rw [h1, hgt]
        simp only [joinSep]
        rw [← hgt, hrec]
        exact hsplit.symm

theorem splitn_step (sep : Char) (k : Nat) (f rest : RStr) (h : sep ∉ f) :
    splitn sep (k + 2) (f ++ sep :: rest) = f :: splitn sep (k + 1) rest := by
  simp [splitn, splitFirst_append rest h]

theorem splitn_one (sep : Char) (s : RStr) : splitn sep 1 s = [s] := rfl

theorem splitn_five (f1 f2 f3 f4 rest : RStr)
    (h1 : '\t' ∉ f1) (h2 : '\t' ∉ f2) (h3 : '\t' ∉ f3) (h4 : '\t' ∉ f4) :
    splitn '\t' 5 (f1 ++ '\t' :: (f2 ++ '\t' :: (f3 ++ '\t' :: (f4 ++ '\t' :: rest))))
      = [f1, f2, f3, f4, rest] := by
  rw [show (5 : Nat) = 3 + 2 from rfl, splitn_step '\t' 3 f1 _ h1]
  rw [show (3 + 1 : Nat) = 2 + 2 from rfl, splitn_step '\t' 2 f2 _ h2]
  rw [show (2 + 1 : Nat) = 1 + 2 from rfl, splitn_step '\t' 1 f3 _ h3]
  rw [show (1 + 1 : Nat) = 0 + 2 from rfl, splitn_step '\t' 0 f4 _ h4]
  rw [splitn_one]

/-- C9: a data line holding more than five tab-separated fields neither
fails nor loses data: the first four fields are taken verbatim (the feature
before hyphen substitution) and the description field receives the entire
remainder of the line after the fourth tab, embedded tabs included. -/
theorem extra_fields_kept_in_description (f1 f2 f3 f4 rest : RStr)
    (h1 : '\t' ∉ f1) (h2 : '\t' ∉ f2) (h3 : '\t' ∉ f3) (h4 : '\t' ∉ f4)
    (ht : '\t' ∈ rest) :
    parse_line (f1 ++ '\t' :: (f2 ++ '\t' :: (f3 ++ '\t' :: (f4 ++ '\t' :: rest))))
      = .ok (replaceDash f1, ⟨f2, f3, f4, rest⟩) := by
  have hf := splitn_five f1 f2 f3 f4 rest h1 h2 h3 h4
  simp [parse_line, hf]

theorem extra_fields_kept_in_description_witness :
    parse_line (str "x509-ext\tOID_A\t1.2.3\ta\tdesc\twith\ttabs")
      = .ok (str "x509_ext", ⟨str "OID_A", str "1.2.3", str "a", str "desc\twith\ttabs"⟩) := by
  have h := extra_fields_kept_in_description (str "x509-ext") (str "OID_A") (str "1.2.3")
    (str "a") (str "desc\twith\ttabs") (by decide) (by decide) (by decide) (by decide) (by decide)
  exact h

theorem parse_line_short (line : RStr) (hlt : (splitn '\t' 5 line).length < 5) :
    parse_line line = .error (fieldErrorMsg (splitn '\t' 5 line).length) := by
  rcases hfs : splitn '\t' 5 line with _ | ⟨a, _ | ⟨b, _ | ⟨c, _ | ⟨d, _ | ⟨e, t⟩⟩⟩⟩⟩
  · obtain ⟨g, t, hgt⟩ := splitn_ne_nil '\t' 5 line (by omega)
    rw [hfs] at hgt
    cases hgt
  · simp [parse_line, hfs]
  · simp [parse_line, hfs]
  · simp [parse_line, hfs]
  · simp [parse_line, hfs]
  · rw [hfs] at hlt
    simp at hlt
    omega

theorem skipLine_false_of (line : RStr) (hne : line ≠ []) (hh : line.head? ≠ some '#') :
    skipLine line = false := by
  cases line with
  | nil => exact absurd rfl hne
  | cons c cs =>
    have : ¬ c = '#' := by
      intro h; exact hh (by simp [h])
    simp [skipLine, this]

theorem load_lines_error_of_mem (line : RStr) (hsk : skipLine line = false)
    (herr : ∃ msg, parse_line line = .error msg) :
    ∀ (lines : List RStr) (acc : LoadedMap), line ∈ lines →
      ∃ msg, load_lines lines acc = .error msg := by
  intro lines
  induction lines with
  | nil => intro acc h; cases h
  | cons l ls ih =>
    intro acc hmem
    by_cases hsl : skipLine l = true
    · have hne : line ≠ l := by
        intro h; rw [h, hsl] at hsk; cases hsk
      have hm : line ∈ ls := by
        cases hmem with
        | head => exact absurd rfl hne
        | tail _ h => exact h
      rw [show load_lines (l :: ls) acc = load_lines ls acc by simp [load_lines, hsl]]
      exact ih acc hm
    · cases hp : parse_line l with
      | error e => exact ⟨e, by simp [load_lines, hsl, hp]⟩
      | ok p =>
        have hne : line ≠ l := by
          intro h
          obtain ⟨msg, hm⟩ := herr
          rw [h, hp] at hm
          cases hm
        have hm : line ∈ ls := by
          cases hmem with
          | head => exact absurd rfl hne
          | tail _ h => exact h
        rw [show load_lines (l :: ls) acc = load_lines ls (mapAppend acc p.1 p.2) by
          simp [load_lines, hsl, hp]]
        exact ih _ hm

/-- C2: a non-skipped line with fewer than five tab-separated fields makes
parsing fail with the error naming the first missing field (field number
`length` of the split, in the order feature, name, OID, short name,
description), and loading an input containing such a line fails rather than
skipping or dropping the line. -/
theorem short_line_fails (line : RStr) (hne : line ≠ []) (hh : line.head? ≠ some '#')
    (hlt : (splitn '\t' 5 line).length < 5) :
    parse_line line = .error (fieldErrorMsg (splitn '\t' 5 line).length)
    ∧ ∀ lines : List RStr, line ∈ lines → ∃ msg, load_file lines = .error msg := by
  have hp := parse_line_short line hlt
  refine ⟨hp, ?_⟩
  intro lines hmem
  exact load_lines_error_of_mem line (skipLine_false_of line hne hh) ⟨_, hp⟩ lines [] hmem

theorem short_line_fails_witness :
    parse_line (str "sig\tOID_X") = .error (fieldErrorMsg 2)
    ∧ ∃ msg, load_file [str "# comment", str "sig\tOID_X"] = .error msg := by
  have h := short_line_fails (str "sig\tOID_X") (by decide) (by decide) (by decide)
  exact ⟨h.1, h.2 [str "# comment", str "sig\tOID_X"] (by decide)⟩

theorem parse_line_not_missing_feature (l : RStr) :
    isErrMissingFeature (parse_line l) = false := by
  rcases hfs : splitn '\t' 5 l with _ | ⟨a, _ | ⟨b, _ | ⟨c, _ | ⟨d, _ | ⟨e, t⟩⟩⟩⟩⟩
  · obtain ⟨g, t, hgt⟩ := splitn_ne_nil '\t' 5 l (by omega)
    rw [hfs] at hgt
    cases hgt
  all_goals simp [parse_line, hfs, isErrMissingFeature]
  all_goals decide

theorem load_lines_not_missing_feature :
    ∀ (lines : List RStr) (acc : LoadedMap),
      isErrMissingFeature (load_lines lines acc) = false := by
  intro lines
  induction lines with
  | nil => intro acc; rfl
  | cons l ls ih =>
    intro acc
    by_cases hsl : skipLine l = true
    · rw [show load_lines (l :: ls) acc = load_lines ls acc by simp [load_lines, hsl]]
      exact ih acc
    · cases hp : parse_line l with
      | error e =>
        have h0 := parse_line_not_missing_feature l
        rw [hp] at h0
        rw [show load_lines (l :: ls) acc = .error e by simp [load_lines, hsl, hp]]
        simpa [isErrMissingFeature] using h0
      | ok p =>
        rw [show load_lines (l :: ls) acc = load_lines ls (mapAppend acc p.1 p.2) by
          simp [load_lines, hsl, hp]]
        exact ih _

/-- C10: the missing-feature branch of the loader is dead code: splitting
any line yields at least one field, and loading never fails with the
missing-feature message. -/
theorem missing_feature_unreachable (line : RStr) (lines : List RStr) :
    (∃ g t, splitn '\t' 5 line = g :: t)
    ∧ isErrMissingFeature (load_file lines) = false := by
  exact ⟨splitn_ne_nil '\t' 5 line (by omega), load_lines_not_missing_feature lines []⟩

theorem findEntries_mapAppend (acc : LoadedMap) (k : RStr) (e : Entry) (f : RStr) :
    findEntries (mapAppend acc k e) f
      = if k = f then findEntries acc f ++ [e] else findEntries acc f := by
  induction acc with
  | nil =>
    by_cases hkf : k = f <;> simp [mapAppend, findEntries, hkf]
  | cons p rest ih =>
    obtain ⟨k', v⟩ := p
    by_cases hk : k' = k
    · by_cases hf : k' = f
      · have : k = f := hk ▸ hf
        simp [mapAppend, findEntries, hk, hf, this]
      · have : ¬ k = f := fun h => hf (hk.trans h)
        simp [mapAppend, findEntries, hk, hf, this]
    · by_cases hf : k' = f
      · have hfk : ¬ f = k := fun h => hk (hf.trans h)
        have hkf : ¬ k = f := fun h => hfk h.symm
        subst hf
        simp [mapAppend, findEntries, hfk, hkf]
      · simp [mapAppend, findEntries, hk, hf, ih]

theorem load_lines_findEntries :
    ∀ (lines : List RStr) (acc m : LoadedMap) (f : RStr),
      load_lines lines acc = .ok m →
      findEntries m f = findEntries acc f ++ dataEntriesFor lines f := by
  intro lines
  induction lines with
  | nil =>
    intro acc m f h
    rw [show m = acc by cases h; rfl]
    simp [dataEntriesFor]
  | cons l ls ih =>
    intro acc m f h
    by_cases hsl : skipLine l = true
    · rw [show load_lines (l :: ls) acc = load_lines ls acc by simp [load_lines, hsl]] at h
      rw [ih acc m f h]
      simp [dataEntriesFor, hsl]
    · cases hp : parse_line l with
      | error e =>
        rw [show load_lines (l :: ls) acc = .error e by simp [load_lines, hsl, hp]] at h
        cases h
      | ok p =>
        rw [show load_lines (l :: ls) acc = load_lines ls (mapAppend acc p.1 p.2) by
          simp [load_lines, hsl, hp]] at h
        rw [ih _ m f h, findEntries_mapAppend]
        have hd : dataEntriesFor (l :: ls) f
            = if p.1 = f then p.2 :: dataEntriesFor ls f else dataEntriesFor ls f := by
          simp [dataEntriesFor, hsl, hp]
        rw [hd]
        by_cases hpf : p.1 = f <;> simp [hpf]

theorem parse_line_ok_feature (l : RStr) (p : RStr × Entry) (hok : parse_line l = .ok p) :
    ∀ (f0 : RStr) (fs : List RStr), splitn '\t' 5 l = f0 :: fs → p.1 = replaceDash f0 := by
  intro f0 fs hsp
  rcases fs with _ | ⟨a, _ | ⟨b, _ | ⟨c, _ | ⟨d, t⟩⟩⟩⟩
  · simp [parse_line, hsp] at hok
  · simp [parse_line, hsp] at hok
  · simp [parse_line, hsp] at hok
  · simp [parse_line, hsp] at hok
  · simp [parse_line, hsp] at hok
    rw [← hok]

/-- C8: when loading succeeds, the map holds, under each feature key, exactly
the entries of the non-skipped lines (skipped lines being those that are
empty or start with a hash) whose feature resolves to that key, in file
order; and the feature key of a parsed line is its first field with every
hyphen replaced by an underscore. -/
theorem loader_groups_by_feature (lines : List RStr) (m : LoadedMap) (f : RStr)
    (h : load_file lines = .ok m) :
    findEntries m f = dataEntriesFor lines f
    ∧ ∀ (l : RStr) (p : RStr × Entry) (f0 : RStr) (fs : List RStr),
        parse_line l = .ok p → splitn '\t' 5 l = f0 :: fs → p.1 = replaceDash f0 := by
  constructor
  · have := load_lines_findEntries lines [] m f h
    simpa [findEntries] using this
  · intro l p f0 fs hok hsp
    exact parse_line_ok_feature l p hok f0 fs hsp

theorem loader_groups_by_feature_witness :
    findEntries
        [(str "a_b", [⟨str "N", str "O", str "S", str "D"⟩,
                      ⟨str "N2", str "O2", str "S2", str "D2"⟩]),
         (str "c", [⟨str "N3", str "O3", str "S3", str "D3"⟩])]
        (str "a_b")
      = dataEntriesFor
          [str "# h", str "a-b\tN\tO\tS\tD", str "",
           str "a-b\tN2\tO2\tS2\tD2", str "c\tN3\tO3\tS3\tD3"]
          (str "a_b") :=
  (loader_groups_by_feature
    [str "# h", str "a-b\tN\tO\tS\tD", str "",
     str "a-b\tN2\tO2\tS2\tD2", str "c\tN3\tO3\tS3\tD3"]
    [(str "a_b", [⟨str "N", str "O", str "S", str "D"⟩,
                  ⟨str "N2", str "O2", str "S2", str "D2"⟩]),
     (str "c", [⟨str "N3", str "O3", str "S3", str "D3"⟩])]
    (str "a_b") (by rfl)).1

theorem lookupOid_insertAssoc (l : List (Oid × OidEntry)) (o : Oid) (e : OidEntry) :
    lookupOid (insertAssoc l o e) o = some e := by
  induction l with
  | nil => simp [insertAssoc, lookupOid]
  | cons p rest ih =>
    obtain ⟨k, v⟩ := p
    by_cases hk : k = o
    · simp [insertAssoc, lookupOid, hk]
    · simp [insertAssoc, lookupOid, hk, ih]

/-- C6: inserting then reading gives back the inserted entry; a second
insert under the same OID returns the first entry and afterwards the lookup
returns the second entry (last write wins); an insert under an absent key
returns none. -/
theorem registry_insert_get (r : OidRegistry) (o : Oid) (e e2 : OidEntry) :
    ((r.insert o e).2.get o = some e)
    ∧ (((r.insert o e).2.insert o e2).1 = some e
        ∧ ((r.insert o e).2.insert o e2).2.get o = some e2)
    ∧ (r.get o = none → (r.insert o e).1 = none) := by
  refine ⟨?_, ⟨?_, ?_⟩, ?_⟩
  · exact lookupOid_insertAssoc r.map o e
  · exact lookupOid_insertAssoc r.map o e
  · exact lookupOid_insertAssoc (insertAssoc r.map o e) o e2
  · intro h; exact h

theorem registry_insert_get_witness :
    ((OidRegistry.mk []).insert [1, 2] ⟨str "a", str "b"⟩).2.get [1, 2]
        = some ⟨str "a", str "b"⟩
    ∧ (((OidRegistry.mk []).insert [1, 2] ⟨str "a", str "b"⟩).2.insert [1, 2]
          ⟨str "c", str "d"⟩).1 = some ⟨str "a", str "b"⟩
    ∧ ((OidRegistry.mk []).insert [1, 2] ⟨str "a", str "b"⟩).1 = none := by
  have h := registry_insert_get (OidRegistry.mk []) [1, 2] ⟨str "a", str "b"⟩
    ⟨str "c", str "d"⟩
  exact ⟨h.1, h.2.1.1, h.2.2 rfl⟩

/-- C5: format_oid renders a registered OID as its short name followed by
the dotted text in parentheses, and an unregistered OID as the dotted text
alone; it is a total pure function of the OID and the registry. -/
theorem format_oid_spec (o : Oid) (r : OidRegistry) :
    (∀ e : OidEntry, r.get o = some e →
      format_oid o r = e.sn ++ str " (" ++ oidShow o ++ str ")")
    ∧ (r.get o = none → format_oid o r = oidShow o) := by
  constructor
  · intro e he
    unfold format_oid
    rw [show lookupOid r.map o = some e from he]
  · intro he
    unfold format_oid
    rw [show lookupOid r.map o = none from he]

theorem format_oid_spec_witness :
    format_oid [1, 2, 3, 4]
        (OidRegistry.mk [([1, 2, 3, 4], ⟨str "foo", str "Foo algorithm"⟩)])
      = str "foo (1.2.3.4)"
    ∧ format_oid [1, 2, 3, 4] (OidRegistry.mk []) = str "1.2.3.4" := by
  have h := format_oid_spec [1, 2, 3, 4]
    (OidRegistry.mk [([1, 2, 3, 4], ⟨str "foo", str "Foo algorithm"⟩)])
  have h2 := format_oid_spec [1, 2, 3, 4] (OidRegistry.mk [])
  refine ⟨(h.1 ⟨str "foo", str "Foo algorithm"⟩ rfl).trans (by decide),
    (h2.2 rfl).trans (by decide)⟩

theorem flatten_map_decomp {α β : Type} (f : α → List β) :
    ∀ (l : List α) (a : α), a ∈ l → ∃ p q, (l.map f).flatten = p ++ f a ++ q := by
  intro l a h
  induction l with
  | nil => cases h
  | cons x xs ih =>
    cases h with
    | head => exact ⟨[], (xs.map f).flatten, by simp⟩
    | tail _ hx =>
      obtain ⟨p, q, hpq⟩ := ih hx
      exact ⟨f x ++ p, q, by simp [hpq]⟩

theorem genConstsEntries_cons (x : Entry) (xs : List Entry) :
    genConstsEntries (x :: xs)
      = (if x.name = sentinel then [] else constDecl x) ++ genConstsEntries xs := by
  simp [genConstsEntries]

theorem genConstsEntries_eq_filter (es : List Entry) :
    genConstsEntries es
      = ((es.filter (fun x => decide (x.name ≠ sentinel))).map constDecl).flatten := by
  induction es with
  | nil => rfl
  | cons x xs ih =>
    rw [genConstsEntries_cons]
    by_cases hx : x.name = sentinel
    · simp [hx, ih]
    · simp [hx, ih]

theorem constDecl_in_genConsts (es : List Entry) (e : Entry) (he : e ∈ es)
    (hn : e.name ≠ sentinel) :
    ∃ p q, genConstsEntries es = p ++ constDecl e ++ q := by
  induction es with
  | nil => cases he
  | cons x xs ih =>
    cases he with
    | head => exact ⟨[], genConstsEntries xs, by rw [genConstsEntries_cons]; simp [hn]⟩
    | tail _ hx =>
      obtain ⟨p, q, hpq⟩ := ih hx
      exact ⟨(if x.name = sentinel then [] else constDecl x) ++ p, q, by
        rw [genConstsEntries_cons, hpq]; simp⟩

theorem constDecl_in_constsFlatten (m : LoadedMap) (k : RStr) (es : List Entry)
    (e : Entry) (hk : (k, es) ∈ m) (he : e ∈ es) (hn : e.name ≠ sentinel) :
    ∃ p q, (m.map (fun kv => genConstsEntries kv.2)).flatten = p ++ constDecl e ++ q := by
  obtain ⟨p1, q1, h1⟩ := flatten_map_decomp (fun kv => genConstsEntries kv.2) m (k, es) hk
  obtain ⟨p2, q2, h2⟩ := constDecl_in_genConsts es e he hn
  exact ⟨p1 ++ p2, q2 ++ q1, by rw [h1]; simp only [h2]; simp⟩

/-- C1: each entry whose canonical name is the sentinel gets no top-level
constant (the constants text is exactly the constant lines of the
non-sentinel entries), while its insertion call is still emitted inside its
population method of its feature; each non-sentinel entry gets a constant line
carrying its name and OID. -/
theorem sentinel_suppresses_constant (m : LoadedMap) (k : RStr) (es : List Entry)
    (e : Entry) (hk : (k, es) ∈ m) (he : e ∈ es) :
    (∃ p q, methodBlock k es = p ++ insertLine e ++ q)
    ∧ (∃ p q, generate_file m = p ++ methodBlock k es ++ q)
    ∧ (e.name ≠ sentinel → ∃ p q, generate_file m = p ++ constDecl e ++ q)
    ∧ genConstsEntries es
        = ((es.filter (fun x => decide (x.name ≠ sentinel))).map constDecl).flatten := by
  refine ⟨?_, ?_, ?_, genConstsEntries_eq_filter es⟩
  · obtain ⟨p, q, hpq⟩ := flatten_map_decomp insertLine es e he
    refine ⟨str "    #[cfg(feature = \"" ++ k ++ str "\")]\n"
      ++ str "    pub fn with_" ++ k ++ str "(mut self) -> Self \x7b\n" ++ p,
      q ++ str "        self\n" ++ str "    \x7d\n" ++ str "\n", ?_⟩
    simp [methodBlock, hpq]
  · obtain ⟨p, q, hpq⟩ := flatten_map_decomp (fun kv => methodBlock kv.1 kv.2) m (k, es) hk
    refine ⟨(m.map (fun kv => genConstsEntries kv.2)).flatten ++ str "\n"
      ++ str "impl OidRegistry \x7b\n" ++ p, q ++ str "\x7d\n", ?_⟩
    simp only [generate_file, hpq]
    simp
  · intro hn
    obtain ⟨p, q, hpq⟩ := constDecl_in_constsFlatten m k es e hk he hn
    refine ⟨p, q ++ str "\n" ++ str "impl OidRegistry \x7b\n"
      ++ (m.map (fun kv => methodBlock kv.1 kv.2)).flatten ++ str "\x7d\n", ?_⟩
    simp only [generate_file, hpq]
    simp

theorem sentinel_suppresses_constant_witness :
    (∃ p q, methodBlock (str "kdf") [eSent, eNorm] = p ++ insertLine eNorm ++ q)
    ∧ (∃ p q, generate_file mSample = p ++ methodBlock (str "kdf") [eSent, eNorm] ++ q)
    ∧ (∃ p q, generate_file mSample = p ++ constDecl eNorm ++ q)
    ∧ genConstsEntries [eSent, eNorm]
        = (([eSent, eNorm].filter (fun x => decide (x.name ≠ sentinel))).map
            constDecl).flatten := by
  have h := sentinel_suppresses_constant mSample (str "kdf") [eSent, eNorm] eNorm
    (by decide) (by decide)
  exact ⟨h.1, h.2.1, h.2.2.1 (by decide), h.2.2.2⟩

/-- C7: inside the generated population method of a feature the insertion calls
keep the input order of the entries, and the whole output places every
emitted constant before the impl block that holds the population methods. -/
theorem generated_order_preserved (m : LoadedMap) (k : RStr) (es : List Entry)
    (e1 e2 : Entry) (l1 l2 l3 : List Entry)
    (hk : (k, es) ∈ m) (hsplit : es = l1 ++ e1 :: (l2 ++ e2 :: l3)) :
    (∃ a b c, methodBlock k es = a ++ insertLine e1 ++ (b ++ insertLine e2 ++ c))
    ∧ ∃ pre post, generate_file m = pre ++ str "impl OidRegistry \x7b\n" ++ post
        ∧ (∀ ke ∈ m, ∀ e ∈ ke.2, e.name ≠ sentinel → ∃ p q, pre = p ++ constDecl e ++ q)
        ∧ ∃ p q, post = p ++ methodBlock k es ++ q := by
  constructor
  · refine ⟨str "    #[cfg(feature = \"" ++ k ++ str "\")]\n"
      ++ str "    pub fn with_" ++ k ++ str "(mut self) -> Self \x7b\n"
      ++ (l1.map insertLine).flatten,
      (l2.map insertLine).flatten,
      (l3.map insertLine).flatten ++ str "        self\n" ++ str "    \x7d\n" ++ str "\n", ?_⟩
    subst hsplit
    simp [methodBlock]
  · refine ⟨(m.map (fun kv => genConstsEntries kv.2)).flatten ++ str "\n",
      (m.map (fun kv => methodBlock kv.1 kv.2)).flatten ++ str "\x7d\n", ?_, ?_, ?_⟩
    · simp [generate_file]
    · intro ke hke e he hn
      obtain ⟨p, q, hpq⟩ := constDecl_in_constsFlatten m ke.1 ke.2 e hke he hn
      exact ⟨p, q ++ str "\n", by rw [hpq]; simp⟩
    · obtain ⟨p, q, hpq⟩ := flatten_map_decomp (fun kv => methodBlock kv.1 kv.2) m (k, es) hk
      exact ⟨p, q ++ str "\x7d\n", by rw [hpq]; simp⟩

theorem generated_order_preserved_witness :
    (∃ a b c, methodBlock (str "kdf") [eSent, eNorm]
      = a ++ insertLine eSent ++ (b ++ insertLine eNorm ++ c))
    ∧ ∃ pre post, generate_file mSample = pre ++ str "impl OidRegistry \x7b\n" ++ post
        ∧ (∀ ke ∈ mSample, ∀ e ∈ ke.2, e.name ≠ sentinel → ∃ p q, pre = p ++ constDecl e ++ q)
        ∧ ∃ p q, post = p ++ methodBlock (str "kdf") [eSent, eNorm] ++ q := by
  exact generated_order_preserved mSample (str "kdf") [eSent, eNorm] eSent eNorm
    [] [] [] (by decide) (by decide)

theorem lookupMap_of_mem_nodup :
    ∀ (m : LoadedMap), keysNodup m → ∀ (k : RStr) (v : List Entry), (k, v) ∈ m →
      lookupMap m k = some v := by
  intro m
  induction m with
  | nil => intro _ k v h; cases h
  | cons p rest ih =>
    intro hnd k v hmem
    obtain ⟨k', v'⟩ := p
    rw [keysNodup, List.map_cons, List.nodup_cons] at hnd
    cases hmem with
    | head => simp [lookupMap]
    | tail _ hx =>
      have hk : ¬ k' = k := by
        intro h
        subst h
        exact hnd.1 (List.mem_map.mpr ⟨(k', v), hx, rfl⟩)
      rw [show lookupMap ((k', v') :: rest) k = lookupMap rest k by simp [lookupMap, hk]]
      exact ih hnd.2 k v hx

theorem sameTable_small_eq (m1 m2 : LoadedMap) (h : sameTable m1 m2)
    (hlen : m1.length ≤ 1) : m1 = m2 := by
  obtain ⟨h1, h2, hl⟩ := h
  cases m1 with
  | nil =>
    cases m2 with
    | nil => rfl
    | cons p r =>
      exfalso
      obtain ⟨k2, v2⟩ := p
      have := hl k2
      simp [lookupMap] at this
  | cons p t =>
    obtain ⟨k, v⟩ := p
    have ht : t = [] := by
      cases t with
      | nil => rfl
      | cons a b => simp at hlen
    subst ht
    cases m2 with
    | nil =>
      exfalso
      have := hl k
      simp [lookupMap] at this
    | cons p2 r2 =>
      obtain ⟨k2, v2⟩ := p2
      have He := hl k2
      rw [show lookupMap ((k2, v2) :: r2) k2 = some v2 by simp [lookupMap]] at He
      by_cases hkk : k = k2
      · subst hkk
        have hv : v = v2 := by
          simp [lookupMap] at He
          exact He
        subst hv
        cases r2 with
        | nil => rfl
        | cons p3 r3 =>
          exfalso
          obtain ⟨k3, v3⟩ := p3
          have hknotin : ¬ k = k3 := by
            intro hek
            rw [keysNodup, List.map_cons, List.nodup_cons] at h2
            exact h2.1 (by simp [hek])
          have hm3 : (k3, v3) ∈ (k, v) :: (k3, v3) :: r3 := by simp
          have hlook := lookupMap_of_mem_nodup _ h2 k3 v3 hm3
          have h13 := hl k3
          rw [hlook] at h13
          simp [lookupMap, hknotin] at h13
      · exfalso
        simp [lookupMap, hkk] at He

/-- C3 fails on the code: the generator output follows the map
iteration order, so two enumerations of the same table (equal contents,
different iteration order) give different output text. -/
theorem generator_depends_on_iteration_order :
    sameTable mAB mBA ∧ generate_file mAB ≠ generate_file mBA := by
  constructor
  · refine ⟨by unfold keysNodup; decide, by unfold keysNodup; decide, ?_⟩
    intro k
    by_cases ha : str "a" = k
    · by_cases hb : str "b" = k
      · exact absurd (ha.trans hb.symm) (by decide)
      · simp [mAB, mBA, lookupMap, ha, hb]
    · by_cases hb : str "b" = k
      · simp [mAB, mBA, lookupMap, ha, hb]
      · simp [mAB, mBA, lookupMap, ha, hb]
  · decide

/-- C3 (amended): the generated text is a function of the enumeration the
generator iterates over; it is independent of the enumeration only for
tables with at most one feature, where equal tables force equal
enumerations and hence identical output on every run. -/
theorem generator_deterministic_one_feature (m1 m2 : LoadedMap) (h : sameTable m1 m2)
    (hlen : m1.length ≤ 1) : generate_file m1 = generate_file m2 := by
  rw [sameTable_small_eq m1 m2 h hlen]

theorem generator_deterministic_one_feature_witness :
    generate_file [(str "kdf", [eNorm])] = generate_file [(str "kdf", [eNorm])] :=
  generator_deterministic_one_feature [(str "kdf", [eNorm])] [(str "kdf", [eNorm])]
    ⟨by unfold keysNodup; decide, by unfold keysNodup; decide, fun _ => rfl⟩ (by decide)

/-- C4 fails on the code: on a well-formed line whose feature field holds a
hyphen, parsing succeeds but re-joining the five parsed fields restores an
underscore where the input had a hyphen, so the original line is not
reproduced byte-for-byte. -/
theorem rejoin_changes_hyphen_feature :
    parse_line (str "a-b\tn\to\ts\td")
      = .ok (str "a_b", ⟨str "n", str "o", str "s", str "d"⟩)
    ∧ joinSep '\t' [str "a_b", str "n", str "o", str "s", str "d"]
        ≠ str "a-b\tn\to\ts\td" := by
  constructor
  · rfl
  · decide

theorem splitn_length_le (sep : Char) : ∀ (n : Nat) (s : RStr), (splitn sep n s).length ≤ n := by
  intro n
  induction n with
  | zero => intro s; simp [splitn]
  | succ m ih =>
    intro s
    match m with
    | 0 => simp [splitn]
    | Nat.succ k =>
      cases hs : splitFirst sep s with
      | none => simp [splitn, hs]
      | some p =>
        rw [show splitn sep (Nat.succ (Nat.succ k)) s = p.1 :: splitn sep (Nat.succ k) p.2 by
          simp [splitn, hs]]
        have := ih p.2
        simp only [List.length_cons]
        omega

/-- C4 (amended): on every well-formed line (five tab-separated fields
after the capped split) parsing is total, the parsed fields are the split
fields with the feature hyphen-substituted, and re-joining the five raw
split fields (the feature taken before hyphen substitution) reproduces the
original line byte-for-byte. -/
theorem parse_total_and_rejoin (line : RStr) (h : (splitn '\t' 5 line).length = 5) :
    ∃ f0 f1 f2 f3 f4 : RStr,
      splitn '\t' 5 line = [f0, f1, f2, f3, f4]
      ∧ parse_line line = .ok (replaceDash f0, ⟨f1, f2, f3, f4⟩)
      ∧ joinSep '\t' [f0, f1, f2, f3, f4] = line := by
  rcases hfs : splitn '\t' 5 line with _ | ⟨a, _ | ⟨b, _ | ⟨c, _ | ⟨d, _ | ⟨e, t⟩⟩⟩⟩⟩ <;>
    rw [hfs] at h
  · simp at h
  · simp at h
  · simp at h
  · simp at h
  · simp at h
  · simp at h
    subst h
    refine ⟨a, b, c, d, e, rfl, by simp [parse_line, hfs], ?_⟩
    have hj := joinSep_splitn '\t' 5 line (by omega)
    rw [hfs] at hj
    exact hj

theorem parse_total_and_rejoin_witness :
    ∃ f0 f1 f2 f3 f4 : RStr,
      splitn '\t' 5 (str "crypto\tOID_FOO\t1.2.3.4\tfoo\tFoo algorithm")
        = [f0, f1, f2, f3, f4]
      ∧ parse_line (str "crypto\tOID_FOO\t1.2.3.4\tfoo\tFoo algorithm")
          = .ok (replaceDash f0, ⟨f1, f2, f3, f4⟩)
      ∧ joinSep '\t' [f0, f1, f2, f3, f4]
          = str "crypto\tOID_FOO\t1.2.3.4\tfoo\tFoo algorithm" :=
  parse_total_and_rejoin (str "crypto\tOID_FOO\t1.2.3.4\tfoo\tFoo algorithm") (by decide)
